import Mathlib

set_option maxHeartbeats 1600000
set_option maxRecDepth 4000

/-!
Verification of the response sanitization and normalization layer of
`src/components/JanAushadhiLocator.tsx` (the geminiService part).

Modelling conventions:
* JS strings are modelled as `List Char`; `undefined` and `null` are merged
  into `JsonVal.null` (they behave identically in every use here: both are
  falsy, both are skipped by the priority-key scan, and `sanitizeString`
  maps both to the empty string).
* JSON numbers are carried as their literal numeral text (`JsonVal.num`),
  since none of the analysed behaviour depends on numeric re-formatting.
* Code that can throw a `TypeError` (property access on `null`) is modelled
  in `Except Unit`.
-/

/-- The degenerate stringification artifact, `"[object Object]"`. -/
def artifactChars : List Char := ("[object Object]").data

/-- Whitespace as removed by JS `String.prototype.trim`. -/
def wsp (c : Char) : Bool :=
  c == ' ' || c == '\t' || c == '\n' || c == '\r' || c == '\x0b' || c == '\x0c'

/-- JS `String.prototype.trim` on char lists. -/
def jsTrim (l : List Char) : List Char :=
  ((l.dropWhile wsp).reverse.dropWhile wsp).reverse

/-- JS `String.prototype.startsWith` on char lists (string, pattern). -/
def startsWithL : List Char → List Char → Bool
  | _, [] => true
  | [], _ :: _ => false
  | c :: cs, p :: ps => c == p && startsWithL cs ps

/-- JS `String.prototype.includes` on char lists (string, pattern). -/
def containsL : List Char → List Char → Bool
  | [], pat => startsWithL [] pat
  | c :: cs, pat => startsWithL (c :: cs) pat || containsL cs pat

/-- JS `Array.prototype.join` with a separator. -/
def joinSep (sep : List Char) : List (List Char) → List Char
  | [] => []
  | [x] => x
  | x :: y :: xs => x ++ sep ++ joinSep sep (y :: xs)

/-- JS `String.prototype.toLowerCase` (ASCII range, as used by the code). -/
def lowerL (l : List Char) : List Char := l.map Char.toLower

/-- A JSON value, as produced by `JSON.parse`. -/
inductive JsonVal where
  | null : JsonVal
  | bool (b : Bool) : JsonVal
  | num (lit : List Char) : JsonVal
  | str (s : List Char) : JsonVal
  | arr (elems : List JsonVal) : JsonVal
  | obj (fields : List (List Char × JsonVal)) : JsonVal

mutual

/-- A size measure on JSON values: string content counts, numerals do not.
    `sizeJ` of a parsed value is strictly below the length of the parsed text. -/
def sizeJ : JsonVal → Nat
  | .null => 0
  | .bool _ => 0
  | .num _ => 0
  | .str s => s.length + 1
  | .arr xs => 1 + sizeArr xs
  | .obj fs => 1 + sizeObj fs

def sizeArr : List JsonVal → Nat
  | [] => 0
  | x :: xs => sizeJ x + sizeArr xs

def sizeObj : List (List Char × JsonVal) → Nat
  | [] => 0
  | (_, v) :: fs => sizeJ v + sizeObj fs

end

/-- Characters that can occur in a JSON numeral. -/
def numChar (c : Char) : Bool :=
  c.isDigit || c == '-' || c == '+' || c == '.' || c == 'e' || c == 'E'

def numLitOk (l : List Char) : Bool := l.all numChar

mutual

/-- Well-formedness of the numeral literals inside a value: this is what makes
    a `JsonVal` JSON-representable in this model (and the parser only produces
    such values). -/
def numOk : JsonVal → Bool
  | .null => true
  | .bool _ => true
  | .num lit => numLitOk lit
  | .str _ => true
  | .arr xs => numOkArr xs
  | .obj fs => numOkObj fs

def numOkArr : List JsonVal → Bool
  | [] => true
  | x :: xs => numOk x && numOkArr xs

def numOkObj : List (List Char × JsonVal) → Bool
  | [] => true
  | (_, v) :: fs => numOk v && numOkObj fs

end

/-- First-match association-list lookup (JS object property read). -/
def lookupL : List (List Char × JsonVal) → List Char → Option JsonVal
  | [], _ => none
  | (k, v) :: fs, key => if k == key then some v else lookupL fs key

/-- Insertion as performed while `JSON.parse` builds an object: a repeated key
    overwrites the earlier value in place (JS object semantics). -/
def insertField : List (List Char × JsonVal) → List Char → JsonVal →
    List (List Char × JsonVal)
  | [], k, v => [(k, v)]
  | (k0, v0) :: fs, k, v =>
    if k0 == k then (k0, v) :: fs else (k0, v0) :: insertField fs k v

/-- A numeral literal denoting zero contains no nonzero digit. -/
def numLitIsZero (l : List Char) : Bool :=
  l.all (fun c => c == '0' || c == '-' || c == '+' || c == '.' || c == 'e' || c == 'E')

/-- JS truthiness of a JSON value (`undefined` merged into `null`). -/
def jsTruthy : JsonVal → Bool
  | .null => false
  | .bool b => b
  | .num lit => !(numLitIsZero lit)
  | .str s => !(s.isEmpty)
  | .arr _ => true
  | .obj _ => true

/-! ### A model of `JSON.parse`

Recursive-descent parser on char lists. The mutual functions take a fuel
argument that is decremented on every cross-call; `parseJson` supplies
`length + 1` fuel, which a strictly input-consuming descent never exhausts. -/

def skipWs : List Char → List Char
  | c :: cs => if wsp c then skipWs cs else c :: cs
  | [] => []

def hexVal (c : Char) : Option Nat :=
  if '0' ≤ c && c ≤ '9' then some (c.toNat - ('0').toNat)
  else if 'a' ≤ c && c ≤ 'f' then some (c.toNat - ('a').toNat + 10)
  else if 'A' ≤ c && c ≤ 'F' then some (c.toNat - ('A').toNat + 10)
  else none

/-- The single-character escapes of JSON strings (the chain of checks in
    `JSON.parse`); `none` for an invalid escape. -/
def escChar (d : Char) : Option Char :=
  if d == '"' then some '"'
  else if d == '\\' then some '\\'
  else if d == '/' then some '/'
  else if d == 'b' then some '\x08'
  else if d == 'f' then some '\x0c'
  else if d == 'n' then some '\n'
  else if d == 'r' then some '\x0d'
  else if d == 't' then some '\t'
  else none

/-- Parse the body of a JSON string after the opening quote.
    Structural on the input; returns content and remaining input. -/
def parseStrBody : List Char → List Char → Option (List Char × List Char)
  | [], _ => none
  | c :: cs, acc =>
    if c == '"' then some (acc.reverse, cs)
    else if c == '\\' then
      match cs with
      | 'u' :: h1 :: h2 :: h3 :: h4 :: cs3 =>
        match hexVal h1, hexVal h2, hexVal h3, hexVal h4 with
        | some a, some b, some c2, some d2 =>
          parseStrBody cs3 (Char.ofNat ((((a * 16 + b) * 16 + c2) * 16 + d2)) :: acc)
        | _, _, _, _ => none
      | d :: cs2 =>
        match escChar d with
        | some ch => parseStrBody cs2 (ch :: acc)
        | none => none
      | [] => none
    else if c.toNat < 32 then none
    else parseStrBody cs (c :: acc)

/-- Parse the fractional part of a numeral ('.' digits), or nothing. -/
def parseFrac (cs : List Char) : Option (List Char × List Char) :=
  match cs with
  | '.' :: r =>
    if (r.takeWhile Char.isDigit).isEmpty then none
    else some ('.' :: r.takeWhile Char.isDigit, r.dropWhile Char.isDigit)
  | _ => some ([], cs)

/-- Parse the tail of an exponent after the `e`/`E` marker. -/
def parseExpTail (e : Char) (r : List Char) : Option (List Char × List Char) :=
  match r with
  | s :: r2 =>
    if s == '+' || s == '-' then
      if (r2.takeWhile Char.isDigit).isEmpty then none
      else some (e :: s :: r2.takeWhile Char.isDigit, r2.dropWhile Char.isDigit)
    else
      if ((s :: r2).takeWhile Char.isDigit).isEmpty then none
      else some (e :: (s :: r2).takeWhile Char.isDigit, (s :: r2).dropWhile Char.isDigit)
  | [] => none

/-- Parse the exponent part of a numeral, or nothing. -/
def parseExp (cs : List Char) : Option (List Char × List Char) :=
  match cs with
  | e :: r => if e == 'e' || e == 'E' then parseExpTail e r else some ([], e :: r)
  | [] => some ([], [])

/-- Parse an unsigned numeral: integer digits (no leading zero), then optional
    fraction and exponent. -/
def parseNumBody (cs1 : List Char) : Option (List Char × List Char) :=
  if (cs1.takeWhile Char.isDigit).isEmpty then none
  else if decide (1 < (cs1.takeWhile Char.isDigit).length)
      && (cs1.takeWhile Char.isDigit).headI == '0' then none
  else
    match parseFrac (cs1.dropWhile Char.isDigit) with
    | none => none
    | some (fr, cs3) =>
      match parseExp cs3 with
      | none => none
      | some (ex, cs4) => some (cs1.takeWhile Char.isDigit ++ fr ++ ex, cs4)

/-- Parse a JSON numeral; returns its literal text and the remaining input. -/
def parseNumber (cs : List Char) : Option (List Char × List Char) :=
  match cs with
  | '-' :: r =>
    match parseNumBody r with
    | some (lit, rest) => some ('-' :: lit, rest)
    | none => none
  | _ => parseNumBody cs

mutual

/-- Parse one JSON value (leading whitespace allowed). -/
def parseVal : Nat → List Char → Option (JsonVal × List Char)
  | 0, _ => none
  | f + 1, cs =>
    match skipWs cs with
    | [] => none
    | c :: rest =>
      if c == '\x7b' then
        match skipWs rest with
        | '\x7d' :: r2 => some (.obj [], r2)
        | r2 => parseMembers f r2 []
      else if c == '[' then
        match skipWs rest with
        | ']' :: r2 => some (.arr [], r2)
        | r2 => parseElems f r2 []
      else if c == '"' then
        match parseStrBody rest [] with
        | some (s, r2) => some (.str s, r2)
        | none => none
      else if c == 't' then
        match rest with
        | 'r' :: 'u' :: 'e' :: r2 => some (.bool true, r2)
        | _ => none
      else if c == 'f' then
        match rest with
        | 'a' :: 'l' :: 's' :: 'e' :: r2 => some (.bool false, r2)
        | _ => none
      else if c == 'n' then
        match rest with
        | 'u' :: 'l' :: 'l' :: r2 => some (.null, r2)
        | _ => none
      else if c == '-' || c.isDigit then
        match parseNumber (c :: rest) with
        | some (lit, r2) => some (.num lit, r2)
        | none => none
      else none

/-- Parse the members of an object after `{` (first key expected next). -/
def parseMembers : Nat → List Char → List (List Char × JsonVal) →
    Option (JsonVal × List Char)
  | 0, _, _ => none
  | f + 1, cs, acc =>
    match cs with
    | '"' :: cs1 =>
      match parseStrBody cs1 [] with
      | none => none
      | some (k, cs2) =>
        match skipWs cs2 with
        | ':' :: cs3 =>
          match parseVal f cs3 with
          | none => none
          | some (v, cs4) =>
            match skipWs cs4 with
            | ',' :: cs5 => parseMembers f (skipWs cs5) (insertField acc k v)
            | '\x7d' :: cs5 => some (.obj (insertField acc k v), cs5)
            | _ => none
        | _ => none
    | _ => none

/-- Parse the elements of an array after `[` (first element expected next). -/
def parseElems : Nat → List Char → List JsonVal → Option (JsonVal × List Char)
  | 0, _, _ => none
  | f + 1, cs, acc =>
    match parseVal f cs with
    | none => none
    | some (v, cs2) =>
      match skipWs cs2 with
      | ',' :: cs3 => parseElems f cs3 (acc ++ [v])
      | ']' :: cs3 => some (.arr (acc ++ [v]), cs3)
      | _ => none

end

/-- The model of `JSON.parse`: whole-input parse with surrounding whitespace. -/
def parseJson (l : List Char) : Option JsonVal :=
  match parseVal (l.length + 1) l with
  | some (v, rest) => if (skipWs rest).isEmpty then some v else none
  | none => none

/-! ### `sanitizeString` (src/components/JanAushadhiLocator.tsx, lines 210-252) -/

/-- The priority key list scanned on object input. -/
def priorityKeys : List (List Char) :=
  [("text").data, ("value").data, ("displayValue").data, ("brand").data,
   ("name").data, ("message").data]

/-- The scan `for (const key of priorityKeys) if (val[key] !== undefined &&
    val[key] !== null) return ...`: first present non-null priority value. -/
def firstPresent (fs : List (List Char × JsonVal)) : List (List Char) → Option JsonVal
  | [] => none
  | k :: ks =>
    match lookupL fs k with
    | some JsonVal.null => firstPresent fs ks
    | some v => some v
    | none => firstPresent fs ks

/-- Fuel-indexed embedding of `sanitizeString`. The JS function recurses both
    structurally and through `JSON.parse` of string input; the fuel makes the
    recursion manifestly total, and `sanitizeFuel_stable` below shows `sizeJ v`
    fuel always suffices, so the recursion terminates on every value. -/
def sanitizeFuel : Nat → JsonVal → List Char
  | 0, _ => []
  | f + 1, v =>
    match v with
    | .null => []
    | .str s =>
      let t := jsTrim s
      if t == artifactChars || startsWithL t (('\x7b') :: ('"') :: [])
          || startsWithL t [('\x7b')] then
        match parseJson t with
        | some p => sanitizeFuel f p
        | none => if t == artifactChars then [] else t
      else if s == artifactChars then [] else s
    | .num lit => lit
    | .bool b => if b then ("true").data else ("false").data
    | .arr xs =>
      joinSep ((", ").data)
        ((xs.map (fun x => sanitizeFuel f x)).filter (fun r => !(r.isEmpty)))
    | .obj fs =>
      match firstPresent fs priorityKeys with
      | some v2 => sanitizeFuel f v2
      | none =>
        match fs with
        | [(_, v2)] => sanitizeFuel f v2
        | _ => []

/-- `sanitizeString`, as a total function: by `sanitizeFuel_stable`,
    `sizeJ v + 1` fuel computes the value of the unbounded recursion. -/
def sanitizeString (v : JsonVal) : List Char :=
  sanitizeFuel (sizeJ v + 1) v

/-! ### analyzePrescription: JSON extraction (lines 279-294) -/

/-- Remove every occurrence of the pattern `p :: ps` from the list
    (JS `String.prototype.replace` with a global literal pattern, empty
    replacement, scanning left to right without overlap). Structural on a
    fuel argument so that it reduces in the kernel; every step consumes at
    least one character, so `l.length` fuel is never exhausted. -/
def removeAllFuel (p : Char) (ps : List Char) : Nat → List Char → List Char
  | 0, l => l
  | _ + 1, [] => []
  | n + 1, c :: cs =>
    if startsWithL (c :: cs) (p :: ps) then removeAllFuel p ps n (List.drop ps.length cs)
    else c :: removeAllFuel p ps n cs

def removeAll (p : Char) (ps : List Char) (l : List Char) : List Char :=
  removeAllFuel p ps l.length l

/-- `cleanedText` (line 281): the response text with ```json fences and then
    bare ``` fences removed, then trimmed. -/
def stripFences (t : List Char) : List Char :=
  jsTrim (removeAll '`' (("``").data) (removeAll '`' (("``json").data) t))

/-- `text.match(/\x7b[\s\S]*\x7d/)` (line 284): the greedy span from the
    first opening brace to the last closing brace, when one exists. -/
def braceSpan (t : List Char) : Option (List Char) :=
  match t.dropWhile (fun c => !(c == '\x7b')) with
  | [] => none
  | c :: cs =>
    match (List.reverse (c :: cs)).dropWhile (fun c2 => !(c2 == '\x7d')) with
    | [] => none
    | r :: rs => some (List.reverse (r :: rs))

/-- The JSON-extraction step of `analyzePrescription` (the spec's
    `extractJson`, lines 279-294): parse the fence-stripped text; on failure
    parse the brace span of the raw text; else fail with the code's error
    message. -/
def extractJson (t : List Char) : Except (List Char) JsonVal :=
  match parseJson (stripFences t) with
  | some v => Except.ok v
  | none =>
    match braceSpan t with
    | some sp =>
      match parseJson sp with
      | some v => Except.ok v
      | none => Except.error (("Failed to parse AI response as JSON").data)
    | none => Except.error (("No JSON structure found in text").data)

/-! ### analyzePrescription: normalization (lines 296-327) -/

/-- A normalized medication row (all fields already sanitized). -/
structure Medication where
  prescribed_brand : List Char
  active_salt : List Char
  jan_aushadhi_generic : List Char
  brand_price_est : List Char
  jan_aushadhi_price_est : List Char
  savings_est : List Char
deriving DecidableEq

/-- JS property read `o[k]`: reading on `null`/`undefined` throws a
    `TypeError`; a missing key, or a primitive receiver, yields `undefined`
    (merged into `JsonVal.null`). -/
def jsGetF : JsonVal → List Char → Except Unit JsonVal
  | JsonVal.null, _ => Except.error ()
  | JsonVal.obj fs, k =>
    Except.ok (match lookupL fs k with | some v => v | none => JsonVal.null)
  | _, _ => Except.ok JsonVal.null

/-- One entry of the `.map` at lines 302-309. -/
def sanitizeMed (m : JsonVal) : Except Unit Medication := do
  let pb ← jsGetF m (("prescribed_brand").data)
  let sa ← jsGetF m (("active_salt").data)
  let ja ← jsGetF m (("jan_aushadhi_generic").data)
  let bp ← jsGetF m (("brand_price_est").data)
  let jp ← jsGetF m (("jan_aushadhi_price_est").data)
  let se ← jsGetF m (("savings_est").data)
  pure { prescribed_brand := sanitizeString pb, active_salt := sanitizeString sa,
         jan_aushadhi_generic := sanitizeString ja, brand_price_est := sanitizeString bp,
         jan_aushadhi_price_est := sanitizeString jp, savings_est := sanitizeString se }

/-- The brand-validity filter at lines 310-313. -/
def keepMed (m : Medication) : Bool :=
  !((lowerL m.prescribed_brand).isEmpty)
    && decide (1 < (lowerL m.prescribed_brand).length)
    && !(containsL (lowerL m.prescribed_brand) (("not provided").data))
    && !(containsL (lowerL m.prescribed_brand) (("illegible").data))

/-- The `.map` over `parsed.medications` (throws on a `null` entry, as JS
    property access would). -/
def mapMeds : List JsonVal → Except Unit (List Medication)
  | [] => Except.ok []
  | m :: ms =>
    match sanitizeMed m with
    | Except.error e => Except.error e
    | Except.ok sm =>
      match mapMeds ms with
      | Except.error e => Except.error e
      | Except.ok rest => Except.ok (sm :: rest)

/-- The medication normalization (lines 301-313): map, then filter. -/
def normalizeMedications (ms : List JsonVal) : Except Unit (List Medication) :=
  match mapMeds ms with
  | Except.ok l => Except.ok (l.filter keepMed)
  | Except.error e => Except.error e

/-- `parsed.bhashini_summary` after the falsy default of line 299. -/
def bhashiniSummaryOf (fs : List (List Char × JsonVal)) : JsonVal :=
  match lookupL fs (("bhashini_summary").data) with
  | some v => if jsTruthy v then v else JsonVal.obj []
  | none => JsonVal.obj []

/-- The value of `s.en` when present and truthy, else `none`
    (`s.en || "Analysis complete."` uses the fallback exactly when this is
    `none`). -/
def rawEn (fs : List (List Char × JsonVal)) : Option JsonVal :=
  match bhashiniSummaryOf fs with
  | JsonVal.obj sfs =>
    match lookupL sfs (("en").data) with
    | some v => if jsTruthy v then some v else none
    | none => none
  | _ => none

/-- The normalized `bhashini_summary.en` (line 321):
    `sanitizeString(s.en || "Analysis complete.")` for a parsed object with
    fields `fs`. -/
def bhashiniEn (fs : List (List Char × JsonVal)) : List Char :=
  sanitizeString (match rawEn fs with
    | some v => v
    | none => JsonVal.str (("Analysis complete.").data))

/-! ### findNearestStore (lines 335-391) -/

/-- A located store as returned to the UI. -/
structure StoreLocation where
  name : List Char
  address : List Char
  mapUri : List Char
deriving DecidableEq

/-- The provider response surface used by `findNearestStore`: the candidate
    list and the free-text answer. -/
structure StoreResponse where
  candidates : Option (List JsonVal)
  text : Option JsonVal

/-- State of the `chunks.forEach` accumulation (lines 356-369). -/
structure ChunkState where
  mapUri : List Char
  name : List Char
  snippets : List Char
deriving DecidableEq

def initChunkState : ChunkState :=
  { mapUri := [], name := ("Jan Aushadhi Kendra").data, snippets := [] }

/-- One `forEach` iteration (lines 360-369); property access on a `null`
    chunk throws. -/
def stepChunk (st : ChunkState) (chunk : JsonVal) : Except Unit ChunkState := do
  let maps ← jsGetF chunk (("maps").data)
  if jsTruthy maps then do
    let uri ← jsGetF maps (("uri").data)
    let st1 := if jsTruthy uri then { st with mapUri := sanitizeString uri } else st
    let title ← jsGetF maps (("title").data)
    let st2 := if jsTruthy title then { st1 with name := sanitizeString title } else st1
    let pas ← jsGetF maps (("placeAnswerSources").data)
    let sn : JsonVal := match pas with
      | JsonVal.obj pfs =>
        (match lookupL pfs (("reviewSnippets").data) with
         | some v => v
         | none => JsonVal.null)
      | _ => JsonVal.null
    if jsTruthy sn then
      match sn with
      | JsonVal.arr s =>
        let sj := joinSep ((". ").data) (s.map sanitizeString)
        pure { st2 with snippets := st2.snippets ++ ((" ").data) ++ sj }
      | _ => pure st2
    else pure st2
  else pure st

def foldChunks : List JsonVal → ChunkState → Except Unit ChunkState
  | [], st => Except.ok st
  | c :: cs, st =>
    match stepChunk st c with
    | Except.ok st2 => foldChunks cs st2
    | Except.error e => Except.error e

/-- `candidates[0].groundingMetadata?.groundingChunks || []` (lines 353-354);
    `forEach` on a truthy non-array throws. -/
def chunksOf (c0 : JsonVal) : Except Unit (List JsonVal) := do
  let metadata ← jsGetF c0 (("groundingMetadata").data)
  let gc : JsonVal := match metadata with
    | JsonVal.obj mfs =>
      (match lookupL mfs (("groundingChunks").data) with
       | some v => v
       | none => JsonVal.null)
    | _ => JsonVal.null
  match (if jsTruthy gc then gc else JsonVal.arr []) with
  | JsonVal.arr xs => pure xs
  | _ => Except.error ()

/-- Decimal numeral of an integer (coordinates are modelled as integers;
    none of the analysed behaviour depends on float formatting). -/
def intToChars (i : Int) : List Char :=
  if i < 0 then '-' :: Nat.toDigits 10 i.natAbs else Nat.toDigits 10 i.toNat

/-- The constructed fallback map-search URL of lines 378-380, embedding the
    supplied coordinates. -/
def synthMapUri (lat lng : Int) : List Char :=
  (("https://www.google.com/maps/search/Pradhan+Mantri+Bhartiya+Janaushadhi+Kendra/@").data)
    ++ intToChars lat ++ ((",").data) ++ intToChars lng ++ ((",15z").data)

/-- `rawText` (line 371). -/
def rawTextOf (resp : StoreResponse) : List Char :=
  match resp.text with
  | some (JsonVal.str s) => s
  | _ => []

/-- `rawText.replace(/\*/g, '')`. -/
def removeStars (l : List Char) : List Char := l.filter (fun c => !(c == '*'))

/-- `address` after line 372. -/
def addr1 (resp : StoreResponse) : List Char :=
  sanitizeString (JsonVal.str (jsTrim (removeStars (rawTextOf resp))))

/-- `address` after the fallback of lines 374-376. -/
def addressOf (resp : StoreResponse) (st : ChunkState) : List Char :=
  if (addr1 resp).isEmpty || decide ((addr1 resp).length < 5) then
    (("Jan Aushadhi Kendra (Verified Store)").data)
      ++ (if st.snippets.isEmpty then [] else ((": ").data) ++ st.snippets)
  else addr1 resp

/-- The body of `findNearestStore` after a successful provider call
    (lines 350-386). -/
def findNearestStoreCore (lat lng : Int) (resp : StoreResponse) :
    Except Unit (Option StoreLocation) :=
  match resp.candidates with
  | none => Except.ok none
  | some [] => Except.ok none
  | some (c0 :: _) => do
    let xs ← chunksOf c0
    let st ← foldChunks xs initChunkState
    let mapUri := if st.mapUri.isEmpty then synthMapUri lat lng else st.mapUri
    pure (some {
      name := (if (sanitizeString (JsonVal.str st.name)).isEmpty
               then ("Jan Aushadhi Kendra").data
               else sanitizeString (JsonVal.str st.name)),
      address := sanitizeString (JsonVal.str (addressOf resp st)),
      mapUri := sanitizeString (JsonVal.str mapUri) })

/-- The exported `findNearestStore`: the whole body runs in `try`/`catch`
    with the `catch` returning `null` (lines 336, 387-390); the provider
    call's outcome is the explicit `net` argument. -/
def findNearestStore (lat lng : Int) (net : Except (List Char) StoreResponse) :
    Option StoreLocation :=
  match net with
  | Except.error _ => none
  | Except.ok resp =>
    match findNearestStoreCore lat lng resp with
    | Except.ok r => r
    | Except.error _ => none

example : sanitizeString (.str (("  abc  ").data)) = ("  abc  ").data := by decide

example :
    sanitizeString (.str (("\x7b\"text\": \"Paracetamol\"\x7d").data))
      = ("Paracetamol").data := by decide

example :
    sanitizeString (.arr [.str (("A").data), .str (("").data), .str (("B").data)])
      = ("A, B").data := by decide

example : sanitizeString (.str (("[object Object]").data)) = [] := by decide

example : sanitizeString (.str (("  [object Object]  ").data)) = [] := by decide

/-! ### Elementary lemmas about the string helpers -/

theorem dropWhile_self (p : Char → Bool) (l : List Char) :
    List.dropWhile p (List.dropWhile p l) = List.dropWhile p l := by
  induction l with
  | nil => simp
  | cons c cs ih =>
    by_cases h : p c
    · simp [List.dropWhile_cons, h, ih]
    · simp [List.dropWhile_cons, h]

theorem dropWhile_head_false (p : Char → Bool) :
    ∀ {l c cs}, List.dropWhile p l = c :: cs → p c = false := by
  intro l
  induction l with
  | nil => intro c cs h; simp at h
  | cons a as ih =>
    intro c cs h
    by_cases ha : p a
    · exact ih (by simpa [List.dropWhile_cons, ha] using h)
    · simp [List.dropWhile_cons, ha] at h
      simpa [h.1] using ha

theorem length_dropWhile_le (p : Char → Bool) (l : List Char) :
    (l.dropWhile p).length ≤ l.length := by
  induction l with
  | nil => simp
  | cons c cs ih =>
    by_cases h : p c
    · simp only [List.dropWhile_cons, h, if_pos]
      exact Nat.le_trans ih (by simp)
    · simp [List.dropWhile_cons, h]

theorem jsTrim_append_eq (l : List Char) :
    ∃ w : List Char, l.dropWhile wsp = jsTrim l ++ w := by
  refine ⟨(List.takeWhile wsp (l.dropWhile wsp).reverse).reverse, ?_⟩
  have h := List.takeWhile_append_dropWhile (p := wsp) (l := (l.dropWhile wsp).reverse)
  calc l.dropWhile wsp
      = (l.dropWhile wsp).reverse.reverse := (List.reverse_reverse _).symm
    _ = (List.takeWhile wsp (l.dropWhile wsp).reverse
          ++ List.dropWhile wsp (l.dropWhile wsp).reverse).reverse := by rw [h]
    _ = jsTrim l ++ (List.takeWhile wsp (l.dropWhile wsp).reverse).reverse := by
          rw [List.reverse_append]; rfl

theorem jsTrim_head_false {l : List Char} {c : Char} {cs : List Char}
    (h : jsTrim l = c :: cs) : wsp c = false := by
  obtain ⟨w, hw⟩ := jsTrim_append_eq l
  rw [h] at hw
  exact dropWhile_head_false wsp hw

theorem jsTrim_idem (l : List Char) : jsTrim (jsTrim l) = jsTrim l := by
  have hdrop : (jsTrim l).dropWhile wsp = jsTrim l := by
    cases h : jsTrim l with
    | nil => simp
    | cons c cs => rw [List.dropWhile_cons, jsTrim_head_false h]; simp
  show (((jsTrim l).dropWhile wsp).reverse.dropWhile wsp).reverse = jsTrim l
  rw [hdrop]
  show ((((l.dropWhile wsp).reverse.dropWhile wsp).reverse).reverse.dropWhile
    wsp).reverse = jsTrim l
  rw [List.reverse_reverse, dropWhile_self]
  rfl

theorem jsTrim_length (l : List Char) : (jsTrim l).length ≤ l.length := by
  unfold jsTrim
  calc ((l.dropWhile wsp).reverse.dropWhile wsp).reverse.length
      = ((l.dropWhile wsp).reverse.dropWhile wsp).length := by rw [List.length_reverse]
    _ ≤ (l.dropWhile wsp).reverse.length := length_dropWhile_le _ _
    _ = (l.dropWhile wsp).length := by rw [List.length_reverse]
    _ ≤ l.length := length_dropWhile_le _ _

theorem startsWithL_single {l : List Char} {c : Char}
    (h : startsWithL l [c] = true) : ∃ r, l = c :: r := by
  cases l with
  | nil => simp [startsWithL] at h
  | cons a as =>
    simp [startsWithL] at h
    exact ⟨as, by rw [h]⟩

theorem skipWs_length (l : List Char) : (skipWs l).length ≤ l.length := by
  induction l with
  | nil => simp [skipWs]
  | cons c cs ih =>
    by_cases h : wsp c
    · simp only [skipWs, h, if_pos]
      exact Nat.le_trans ih (by simp)
    · simp [skipWs, h]

/-! ### Size and well-formedness bookkeeping -/

theorem sizeArr_append (acc : List JsonVal) (v : JsonVal) :
    sizeArr (acc ++ [v]) = sizeArr acc + sizeJ v := by
  induction acc with
  | nil => simp [sizeArr]
  | cons x xs ih => simp [sizeArr, ih]; omega

theorem insertField_size (fs : List (List Char × JsonVal)) (k : List Char)
    (v : JsonVal) : sizeObj (insertField fs k v) ≤ sizeObj fs + sizeJ v := by
  induction fs with
  | nil => simp [insertField, sizeObj]
  | cons f0 fs ih =>
    obtain ⟨k0, v0⟩ := f0
    by_cases h : k0 == k
    · simp [insertField, h, sizeObj]; omega
    · simp only [insertField, h, Bool.false_eq_true, if_false, sizeObj]
      omega

theorem lookupL_size {fs : List (List Char × JsonVal)} {k : List Char}
    {v : JsonVal} (h : lookupL fs k = some v) : sizeJ v ≤ sizeObj fs := by
  induction fs with
  | nil => simp [lookupL] at h
  | cons f0 fs ih =>
    obtain ⟨k0, v0⟩ := f0
    by_cases hk : k0 == k
    · simp [lookupL, hk] at h
      simp [sizeObj, ← h]
    · simp only [lookupL, hk, Bool.false_eq_true, if_false] at h
      have := ih h
      simp [sizeObj]; omega

theorem firstPresent_size {fs : List (List Char × JsonVal)}
    {ks : List (List Char)} {v : JsonVal}
    (h : firstPresent fs ks = some v) : sizeJ v ≤ sizeObj fs := by
  induction ks with
  | nil => simp [firstPresent] at h
  | cons k ks ih =>
    rw [firstPresent] at h
    revert h
    cases hl : lookupL fs k with
    | none => intro h; exact ih h
    | some v0 =>
      cases v0 with
      | null => intro h; exact ih h
      | bool b => intro h; cases h; exact lookupL_size hl
      | num lit => intro h; cases h; exact lookupL_size hl
      | str s => intro h; cases h; exact lookupL_size hl
      | arr xs => intro h; cases h; exact lookupL_size hl
      | obj f2 => intro h; cases h; exact lookupL_size hl

theorem sizeJ_mem_arr {x : JsonVal} {xs : List JsonVal} (h : x ∈ xs) :
    sizeJ x ≤ sizeArr xs := by
  induction xs with
  | nil => cases h
  | cons y ys ih =>
    rcases List.mem_cons.mp h with h1 | h2
    · subst h1; simp [sizeArr]
    · have := ih h2; simp [sizeArr]; omega

theorem lookupL_numOk {fs : List (List Char × JsonVal)} {k : List Char}
    {v : JsonVal} (h : lookupL fs k = some v) (ho : numOkObj fs = true) :
    numOk v = true := by
  induction fs with
  | nil => simp [lookupL] at h
  | cons f0 fs ih =>
    obtain ⟨k0, v0⟩ := f0
    rw [numOkObj, Bool.and_eq_true] at ho
    by_cases hk : k0 == k
    · simp [lookupL, hk] at h
      rw [← h]; exact ho.1
    · simp only [lookupL, hk, Bool.false_eq_true, if_false] at h
      exact ih h ho.2

theorem firstPresent_numOk {fs : List (List Char × JsonVal)}
    {ks : List (List Char)} {v : JsonVal}
    (h : firstPresent fs ks = some v) (ho : numOkObj fs = true) :
    numOk v = true := by
  induction ks with
  | nil => simp [firstPresent] at h
  | cons k ks ih =>
    rw [firstPresent] at h
    revert h
    cases hl : lookupL fs k with
    | none => intro h; exact ih h
    | some v0 =>
      cases v0 with
      | null => intro h; exact ih h
      | bool b => intro h; cases h; exact lookupL_numOk hl ho
      | num lit => intro h; cases h; exact lookupL_numOk hl ho
      | str s => intro h; cases h; exact lookupL_numOk hl ho
      | arr xs => intro h; cases h; exact lookupL_numOk hl ho
      | obj f2 => intro h; cases h; exact lookupL_numOk hl ho

theorem numOkArr_mem {x : JsonVal} {xs : List JsonVal} (h : x ∈ xs)
    (ho : numOkArr xs = true) : numOk x = true := by
  induction xs with
  | nil => cases h
  | cons y ys ih =>
    rw [numOkArr, Bool.and_eq_true] at ho
    rcases List.mem_cons.mp h with h1 | h2
    · subst h1; exact ho.1
    · exact ih h2 ho.2

theorem insertField_numOk {fs : List (List Char × JsonVal)} {k : List Char}
    {v : JsonVal} (ho : numOkObj fs = true) (hv : numOk v = true) :
    numOkObj (insertField fs k v) = true := by
  induction fs with
  | nil => simp [insertField, numOkObj, hv]
  | cons f0 fs ih =>
    obtain ⟨k0, v0⟩ := f0
    rw [numOkObj, Bool.and_eq_true] at ho
    by_cases hk : k0 == k
    · simp [insertField, hk, numOkObj, hv, ho.2]
    · simp only [insertField, hk, Bool.false_eq_true, if_false, numOkObj,
        Bool.and_eq_true]
      exact ⟨ho.1, ih ho.2⟩

/-! ### Length accounting for the parser -/

theorem parseStrBody_length :
    ∀ (cs acc : List Char), ∀ {s rest : List Char},
      parseStrBody cs acc = some (s, rest) →
      s.length + 1 + rest.length ≤ cs.length + acc.length := by
  intro cs acc
  induction cs, acc using parseStrBody.induct with
  | case1 pat =>
    intro s rest h
    simp [parseStrBody] at h
  | case2 c cs pat hc =>
    intro s rest h
    rw [parseStrBody.eq_def] at h
    simp [hc] at h
    obtain ⟨h1, h2⟩ := h
    subst h1; subst h2
    simp
    omega
  | case3 c pat hc hbs h1 h2 h3 h4 cs3 a b c2 d2 e4 e3 e2 e1 ih =>
    intro s rest h
    rw [parseStrBody.eq_def] at h
    simp [hc, hbs, e1, e2, e3, e4] at h
    have hb := ih h
    simp at hb ⊢
    omega
  | case4 c pat hc hbs h1 h2 h3 h4 cs3 hfail =>
    intro s rest h
    rw [parseStrBody.eq_def] at h
    simp [hc, hbs] at h
  | case5 c pat hc hbs d cs2 hnotu ch hesc ih =>
    intro s rest h
    rw [parseStrBody.eq_def] at h
    simp [hc, hbs, hesc] at h
    have hb := ih h
    simp at hb ⊢
    omega
  | case6 c pat hc hbs d cs2 hnotu hesc =>
    intro s rest h
    rw [parseStrBody.eq_def] at h
    simp [hc, hbs, hesc] at h
  | case7 c pat hc hbs =>
    intro s rest h
    rw [parseStrBody.eq_def] at h
    simp [hc, hbs] at h
  | case8 c cs pat hc hbs hctl =>
    intro s rest h
    rw [parseStrBody.eq_def] at h
    simp [hc, hbs, hctl] at h
  | case9 c cs pat hc hbs hctl ih =>
    intro s rest h
    rw [parseStrBody.eq_def] at h
    simp [hc, hbs, hctl] at h
    have hb := ih h
    simp at hb ⊢
    omega

theorem takeWhile_dropWhile_length (p : Char → Bool) (l : List Char) :
    (l.takeWhile p).length + (l.dropWhile p).length = l.length := by
  conv_rhs => rw [← List.takeWhile_append_dropWhile (p := p) (l := l)]
  rw [List.length_append]

theorem parseFrac_length {cs fr rest : List Char}
    (h : parseFrac cs = some (fr, rest)) : rest.length ≤ cs.length := by
  rw [parseFrac.eq_def] at h
  split at h
  · rename_i r
    split at h
    · cases h
    · injection h with h1
      have h2 : rest = List.dropWhile Char.isDigit r := congrArg Prod.snd h1.symm
      have h3 := length_dropWhile_le Char.isDigit r
      simp [h2]
      omega
  · injection h with h1
    have h2 : rest = cs := congrArg Prod.snd h1.symm
    simp [h2]

theorem parseExpTail_length {e : Char} {r ex rest : List Char}
    (h : parseExpTail e r = some (ex, rest)) : rest.length ≤ r.length := by
  rw [parseExpTail.eq_def] at h
  split at h
  · rename_i s r2
    split at h <;> split at h
    · cases h
    · injection h with h1
      have h2 : rest = List.dropWhile Char.isDigit r2 := congrArg Prod.snd h1.symm
      have h3 := length_dropWhile_le Char.isDigit r2
      simp [h2]
      omega
    · cases h
    · injection h with h1
      have h2 : rest = List.dropWhile Char.isDigit (s :: r2) := congrArg Prod.snd h1.symm
      have h3 := length_dropWhile_le Char.isDigit (s :: r2)
      simp only [h2]
      exact h3
  · cases h

theorem parseExp_length {cs ex rest : List Char}
    (h : parseExp cs = some (ex, rest)) : rest.length ≤ cs.length := by
  rw [parseExp.eq_def] at h
  split at h
  · rename_i e r
    split at h
    · have := parseExpTail_length h
      simp
      omega
    · injection h with h1
      have h2 : rest = e :: r := congrArg Prod.snd h1.symm
      simp [h2]
  · injection h with h1
    have h2 : rest = [] := congrArg Prod.snd h1.symm
    simp [h2]

theorem parseNumBody_length {cs1 lit rest : List Char}
    (h : parseNumBody cs1 = some (lit, rest)) : rest.length < cs1.length := by
  rw [parseNumBody.eq_def] at h
  split at h
  · cases h
  · split at h
    · cases h
    · rename_i hne _
      split at h
      · cases h
      · rename_i fr cs3 hfr
        split at h
        · cases h
        · rename_i ex cs4 hex
          injection h with h1
          have h2 : rest = cs4 := congrArg Prod.snd h1.symm
          have h3 := parseFrac_length hfr
          have h4 := parseExp_length hex
          have h5 := takeWhile_dropWhile_length Char.isDigit cs1
          have h6 : (cs1.takeWhile Char.isDigit).length ≠ 0 := by
            simpa [List.isEmpty_iff_length_eq_zero] using hne
          subst h2
          omega

theorem parseNumber_length {cs lit rest : List Char}
    (h : parseNumber cs = some (lit, rest)) : rest.length < cs.length := by
  rw [parseNumber.eq_def] at h
  split at h
  · rename_i r
    split at h
    · rename_i lit0 rest0 hb
      injection h with h1
      have h2 : rest = rest0 := congrArg Prod.snd h1.symm
      have h3 := parseNumBody_length hb
      subst h2
      simp
      omega
    · cases h
  · have := parseNumBody_length h
    omega

/-! ### The parser produces well-formed numeral literals -/

theorem takeWhile_digits_numOk (l : List Char) :
    (l.takeWhile Char.isDigit).all numChar = true := by
  rw [List.all_eq_true]
  intro x hx
  have hd : Char.isDigit x = true := List.mem_takeWhile_imp hx
  simp [numChar, hd]

theorem parseFrac_numOk {cs fr rest : List Char}
    (h : parseFrac cs = some (fr, rest)) : fr.all numChar = true := by
  rw [parseFrac.eq_def] at h
  split at h
  · rename_i r
    split at h
    · cases h
    · injection h with h1
      have h2 : fr = '.' :: r.takeWhile Char.isDigit := congrArg Prod.fst h1.symm
      subst h2
      simp only [List.all_cons, Bool.and_eq_true]
      exact ⟨by decide, takeWhile_digits_numOk r⟩
  · injection h with h1
    have h2 : fr = [] := congrArg Prod.fst h1.symm
    simp [h2]

theorem parseExpTail_numOk {e : Char} {r ex rest : List Char}
    (he : (e == 'e' || e == 'E') = true)
    (h : parseExpTail e r = some (ex, rest)) : ex.all numChar = true := by
  have hne : numChar e = true := by
    rcases Bool.or_eq_true .. ▸ he with h1 | h1 <;>
      simp only [beq_iff_eq] at h1 <;> simp [numChar, h1]
  rw [parseExpTail.eq_def] at h
  split at h
  · rename_i s r2
    split at h <;> split at h
    · cases h
    · rename_i hs _
      injection h with h1
      have h2 : ex = e :: s :: r2.takeWhile Char.isDigit := congrArg Prod.fst h1.symm
      subst h2
      have hns : numChar s = true := by
        rcases Bool.or_eq_true .. ▸ hs with h1 | h1 <;>
          simp only [beq_iff_eq] at h1 <;> simp [numChar, h1]
      simp only [List.all_cons, Bool.and_eq_true]
      exact ⟨hne, hns, takeWhile_digits_numOk r2⟩
    · cases h
    · injection h with h1
      have h2 : ex = e :: (s :: r2).takeWhile Char.isDigit := congrArg Prod.fst h1.symm
      subst h2
      simp only [List.all_cons, Bool.and_eq_true]
      exact ⟨hne, takeWhile_digits_numOk (s :: r2)⟩
  · cases h

theorem parseExp_numOk {cs ex rest : List Char}
    (h : parseExp cs = some (ex, rest)) : ex.all numChar = true := by
  rw [parseExp.eq_def] at h
  split at h
  · rename_i e r
    split at h
    · exact parseExpTail_numOk (by assumption) h
    · injection h with h1
      have h2 : ex = [] := congrArg Prod.fst h1.symm
      simp [h2]
  · injection h with h1
    have h2 : ex = [] := congrArg Prod.fst h1.symm
    simp [h2]

theorem parseNumBody_numOk {cs1 lit rest : List Char}
    (h : parseNumBody cs1 = some (lit, rest)) : numLitOk lit = true := by
  rw [parseNumBody.eq_def] at h
  split at h
  · cases h
  · split at h
    · cases h
    · split at h
      · cases h
      · rename_i fr cs3 hfr
        split at h
        · cases h
        · rename_i ex cs4 hex
          injection h with h1
          have h2 : lit = cs1.takeWhile Char.isDigit ++ fr ++ ex :=
            congrArg Prod.fst h1.symm
          subst h2
          simp only [numLitOk, List.all_append, Bool.and_eq_true]
          exact ⟨⟨takeWhile_digits_numOk cs1, parseFrac_numOk hfr⟩, parseExp_numOk hex⟩

theorem parseNumber_numOk {cs lit rest : List Char}
    (h : parseNumber cs = some (lit, rest)) : numLitOk lit = true := by
  rw [parseNumber.eq_def] at h
  split at h
  · rename_i r
    split at h
    · rename_i lit0 rest0 hb
      injection h with h1
      have h2 : lit = '-' :: lit0 := congrArg Prod.fst h1.symm
      subst h2
      have h3 := parseNumBody_numOk hb
      simp only [numLitOk, List.all_cons, Bool.and_eq_true]
      exact ⟨by decide, h3⟩
    · cases h
  · exact parseNumBody_numOk h

theorem numOkArr_append {acc : List JsonVal} {v : JsonVal}
    (ha : numOkArr acc = true) (hv : numOk v = true) :
    numOkArr (acc ++ [v]) = true := by
  induction acc with
  | nil => simp [numOkArr, hv]
  | cons x xs ih =>
    rw [numOkArr, Bool.and_eq_true] at ha
    simp only [List.cons_append, numOkArr, Bool.and_eq_true]
    exact ⟨ha.1, ih ha.2⟩

/-! ### The parser consumes more input than the size of its output -/

theorem parse_bounds :
    ∀ f : Nat,
      (∀ cs v rest, parseVal f cs = some (v, rest) →
        (sizeJ v + rest.length < cs.length ∧ numOk v = true)) ∧
      (∀ cs acc v rest, parseMembers f cs acc = some (v, rest) →
        ∃ fields, v = .obj fields ∧
          sizeObj fields + rest.length + 2 ≤ sizeObj acc + cs.length ∧
          (numOkObj acc = true → numOkObj fields = true)) ∧
      (∀ cs acc v rest, parseElems f cs acc = some (v, rest) →
        ∃ els, v = .arr els ∧
          sizeArr els + rest.length + 2 ≤ sizeArr acc + cs.length ∧
          (numOkArr acc = true → numOkArr els = true)) := by
  intro f
  induction f with
  | zero =>
    refine ⟨?_, ?_, ?_⟩
    · intro cs v rest h; rw [parseVal.eq_1] at h; cases h
    · intro cs acc v rest h; rw [parseMembers.eq_1] at h; cases h
    · intro cs acc v rest h; rw [parseElems.eq_1] at h; cases h
  | succ f ih =>
    obtain ⟨ih1, ih2, ih3⟩ := ih
    refine ⟨?_, ?_, ?_⟩
    · intro cs v rest h
      simp only [parseVal] at h
      split at h
      · cases h
      · rename_i c rest0 hsk
        have hlen : rest0.length + 1 ≤ cs.length := by
          have h0 := skipWs_length cs
          rw [hsk] at h0
          simpa using h0
        split at h
        · -- c == '{'
          split at h
          · rename_i r2 hsk2
            have h0 := skipWs_length rest0
            rw [hsk2] at h0
            simp at h0
            injection h with h1
            have hv : v = JsonVal.obj [] := congrArg Prod.fst h1.symm
            have hr : rest = r2 := congrArg Prod.snd h1.symm
            subst hv; subst hr
            refine ⟨?_, by simp [numOk, numOkObj]⟩
            simp [sizeJ, sizeObj]
            omega
          · obtain ⟨fields, hv, hb, hnum⟩ := ih2 (skipWs rest0) [] v rest h
            subst hv
            have h0 := skipWs_length rest0
            refine ⟨?_, ?_⟩
            · simp only [sizeJ]
              simp only [sizeObj] at hb
              omega
            · simp only [numOk]
              exact hnum (by simp [numOkObj])
        · split at h
          · -- c == '['
            split at h
            · rename_i r2 hsk2
              have h0 := skipWs_length rest0
              rw [hsk2] at h0
              simp at h0
              injection h with h1
              have hv : v = JsonVal.arr [] := congrArg Prod.fst h1.symm
              have hr : rest = r2 := congrArg Prod.snd h1.symm
              subst hv; subst hr
              refine ⟨?_, by simp [numOk, numOkArr]⟩
              simp [sizeJ, sizeArr]
              omega
            · obtain ⟨els, hv, hb, hnum⟩ := ih3 (skipWs rest0) [] v rest h
              subst hv
              have h0 := skipWs_length rest0
              refine ⟨?_, ?_⟩
              · simp only [sizeJ]
                simp only [sizeArr] at hb
                omega
              · simp only [numOk]
                exact hnum (by simp [numOkArr])
          · split at h
            · -- c == '"'
              split at h
              · rename_i s r2 hstr
                have h0 := parseStrBody_length rest0 [] hstr
                injection h with h1
                have hv : v = JsonVal.str s := congrArg Prod.fst h1.symm
                have hr : rest = r2 := congrArg Prod.snd h1.symm
                subst hv; subst hr
                refine ⟨?_, by simp [numOk]⟩
                simp only [sizeJ]
                simp at h0
                omega
              · cases h
            · split at h
              · -- c == 't'
                split at h
                · rename_i r2
                  injection h with h1
                  have hv : v = JsonVal.bool true := (congrArg Prod.fst h1).symm
                  have hr : rest = r2 := (congrArg Prod.snd h1).symm
                  subst hv; subst hr
                  refine ⟨?_, by simp [numOk]⟩
                  simp only [sizeJ]
                  simp at hlen
                  omega
                · cases h
              · split at h
                · -- c == 'f'
                  split at h
                  · rename_i r2
                    injection h with h1
                    have hv : v = JsonVal.bool false := (congrArg Prod.fst h1).symm
                    have hr : rest = r2 := (congrArg Prod.snd h1).symm
                    subst hv; subst hr
                    refine ⟨?_, by simp [numOk]⟩
                    simp only [sizeJ]
                    simp at hlen
                    omega
                  · cases h
                · split at h
                  · -- c == 'n'
                    split at h
                    · rename_i r2
                      injection h with h1
                      have hv : v = JsonVal.null := (congrArg Prod.fst h1).symm
                      have hr : rest = r2 := (congrArg Prod.snd h1).symm
                      subst hv; subst hr
                      refine ⟨?_, by simp [numOk]⟩
                      simp only [sizeJ]
                      simp at hlen
                      omega
                    · cases h
                  · split at h
                    · -- number
                      split at h
                      · rename_i lit r2 hnumq
                        have h0 := parseNumber_length hnumq
                        injection h with h1
                        have hv : v = JsonVal.num lit := congrArg Prod.fst h1.symm
                        have hr : rest = r2 := congrArg Prod.snd h1.symm
                        subst hv; subst hr
                        refine ⟨?_, by simpa [numOk] using parseNumber_numOk hnumq⟩
                        simp only [sizeJ]
                        simp at h0
                        omega
                      · cases h
                    · cases h
    · intro cs acc v rest h
      simp only [parseMembers] at h
      split at h
      · rename_i cs1
        split at h
        · cases h
        · rename_i k cs2 hstr
          have h0 := parseStrBody_length cs1 [] hstr
          simp at h0
          split at h
          · rename_i cs3 hsk3
            have h1 : cs3.length + 1 ≤ cs2.length := by
              have hx := skipWs_length cs2
              rw [hsk3] at hx
              simpa using hx
            split at h
            · cases h
            · rename_i v0 cs4 hval
              obtain ⟨hsz, hnum0⟩ := ih1 cs3 v0 cs4 hval
              split at h
              · rename_i cs5 hsk5
                have h2 : cs5.length + 1 ≤ cs4.length := by
                  have hx := skipWs_length cs4
                  rw [hsk5] at hx
                  simpa using hx
                obtain ⟨fields, hv, hb, hnum⟩ :=
                  ih2 (skipWs cs5) (insertField acc k v0) v rest h
                have h3 := skipWs_length cs5
                have h4 := insertField_size acc k v0
                refine ⟨fields, hv, ?_, fun ha => hnum (insertField_numOk ha hnum0)⟩
                simp
                omega
              · rename_i cs5 hsk5
                have h2 : cs5.length + 1 ≤ cs4.length := by
                  have hx := skipWs_length cs4
                  rw [hsk5] at hx
                  simpa using hx
                injection h with h1
                have hv : v = JsonVal.obj (insertField acc k v0) :=
                  congrArg Prod.fst h1.symm
                have hr : rest = cs5 := congrArg Prod.snd h1.symm
                subst hr
                have h4 := insertField_size acc k v0
                refine ⟨insertField acc k v0, hv, ?_,
                  fun ha => insertField_numOk ha hnum0⟩
                simp
                omega
              · cases h
          · cases h
      · cases h
    · intro cs acc v rest h
      simp only [parseElems] at h
      split at h
      · cases h
      · rename_i v0 cs2 hval
        obtain ⟨hsz, hnum0⟩ := ih1 cs v0 cs2 hval
        split at h
        · rename_i cs3 hsk3
          have h1 : cs3.length + 1 ≤ cs2.length := by
            have hx := skipWs_length cs2
            rw [hsk3] at hx
            simpa using hx
          obtain ⟨els, hv, hb, hnum⟩ := ih3 cs3 (acc ++ [v0]) v rest h
          have h4 := sizeArr_append acc v0
          refine ⟨els, hv, ?_, fun ha => hnum (numOkArr_append ha hnum0)⟩
          rw [h4] at hb
          omega
        · rename_i cs3 hsk3
          have h1 : cs3.length + 1 ≤ cs2.length := by
            have hx := skipWs_length cs2
            rw [hsk3] at hx
            simpa using hx
          injection h with h1x
          have hv : v = JsonVal.arr (acc ++ [v0]) := congrArg Prod.fst h1x.symm
          have hr : rest = cs3 := congrArg Prod.snd h1x.symm
          subst hr
          have h4 := sizeArr_append acc v0
          refine ⟨acc ++ [v0], hv, ?_, fun ha => numOkArr_append ha hnum0⟩
          rw [h4]
          omega
        · cases h

/-- A successful `JSON.parse` yields a value smaller than the parsed text. -/
theorem parseJson_size {l : List Char} {v : JsonVal} (h : parseJson l = some v) :
    sizeJ v < l.length := by
  rw [parseJson] at h
  split at h
  · rename_i v0 rest hp
    split at h
    · injection h with h1
      subst h1
      exact Nat.lt_of_le_of_lt (Nat.le_add_right _ _) ((parse_bounds _).1 l v0 rest hp).1
    · cases h
  · cases h

/-- A successful `JSON.parse` yields well-formed numeral literals. -/
theorem parseJson_numOk {l : List Char} {v : JsonVal} (h : parseJson l = some v) :
    numOk v = true := by
  rw [parseJson] at h
  split at h
  · rename_i v0 rest hp
    split at h
    · injection h with h1
      subst h1
      exact ((parse_bounds _).1 l v0 rest hp).2
    · cases h
  · cases h

/-! ### One-step unfoldings of the sanitizer, and its stability in fuel -/

theorem sanitizeFuel_str (f : Nat) (s : List Char) :
    sanitizeFuel (f + 1) (JsonVal.str s) =
      (if (jsTrim s == artifactChars
          || startsWithL (jsTrim s) (('\x7b') :: ('"') :: [])
          || startsWithL (jsTrim s) [('\x7b')]) = true then
        match parseJson (jsTrim s) with
        | some p => sanitizeFuel f p
        | none => if (jsTrim s == artifactChars) = true then [] else jsTrim s
      else if (s == artifactChars) = true then [] else s) := rfl

theorem sanitizeFuel_arr (f : Nat) (xs : List JsonVal) :
    sanitizeFuel (f + 1) (JsonVal.arr xs) =
      joinSep ((", ").data)
        ((xs.map (fun x => sanitizeFuel f x)).filter (fun r => !(r.isEmpty))) := rfl

theorem sanitizeFuel_obj (f : Nat) (fs : List (List Char × JsonVal)) :
    sanitizeFuel (f + 1) (JsonVal.obj fs) =
      (match firstPresent fs priorityKeys with
      | some v2 => sanitizeFuel f v2
      | none =>
        match fs with
        | [(_, v2)] => sanitizeFuel f v2
        | _ => []) := rfl

theorem startsWithL_two_imp {l : List Char} {a b : Char}
    (h : startsWithL l [a, b] = true) : startsWithL l [a] = true := by
  cases l with
  | nil => simp [startsWithL] at h
  | cons c cs =>
    simp [startsWithL] at h ⊢
    exact h.1

theorem sanitizeFuel_stable :
    ∀ (n : Nat) (v : JsonVal), sizeJ v < n → sanitizeFuel n v = sanitizeString v := by
  intro n
  induction n using Nat.strong_induction_on with
  | _ n ih =>
    intro v hv
    cases n with
    | zero => exact absurd hv (Nat.not_lt_zero _)
    | succ m =>
      cases v with
      | null => rfl
      | bool b => rfl
      | num lit => rfl
      | str s =>
        have hsz : sizeJ (JsonVal.str s) = s.length + 1 := by simp [sizeJ]
        rw [hsz] at hv
        show sanitizeFuel (m + 1) (JsonVal.str s)
          = sanitizeFuel (sizeJ (JsonVal.str s) + 1) (JsonVal.str s)
        rw [hsz, sanitizeFuel_str m s, sanitizeFuel_str (s.length + 1) s]
        split
        · cases hp : parseJson (jsTrim s) with
          | some p =>
            have hps := parseJson_size hp
            have hle := jsTrim_length s
            dsimp only
            rw [ih m (by omega) p (by omega),
              ih (s.length + 1) (by omega) p (by omega)]
          | none => rfl
        · rfl
      | arr xs =>
        have hsz : sizeJ (JsonVal.arr xs) = 1 + sizeArr xs := by simp [sizeJ]
        rw [hsz] at hv
        show sanitizeFuel (m + 1) (JsonVal.arr xs)
          = sanitizeFuel (sizeJ (JsonVal.arr xs) + 1) (JsonVal.arr xs)
        rw [hsz, sanitizeFuel_arr m xs, sanitizeFuel_arr (1 + sizeArr xs) xs]
        have hmap : xs.map (fun x => sanitizeFuel m x)
            = xs.map (fun x => sanitizeFuel (1 + sizeArr xs) x) := by
          apply List.map_congr_left
          intro x hx
          have hxs := sizeJ_mem_arr hx
          rw [ih m (by omega) x (by omega),
            ih (1 + sizeArr xs) (by omega) x (by omega)]
        rw [hmap]
      | obj fs =>
        have hsz : sizeJ (JsonVal.obj fs) = 1 + sizeObj fs := by simp [sizeJ]
        rw [hsz] at hv
        show sanitizeFuel (m + 1) (JsonVal.obj fs)
          = sanitizeFuel (sizeJ (JsonVal.obj fs) + 1) (JsonVal.obj fs)
        rw [hsz, sanitizeFuel_obj m fs, sanitizeFuel_obj (1 + sizeObj fs) fs]
        cases hfp : firstPresent fs priorityKeys with
        | some v2 =>
          have hv2 := firstPresent_size hfp
          dsimp only
          rw [ih m (by omega) v2 (by omega),
            ih (1 + sizeObj fs) (by omega) v2 (by omega)]
        | none =>
          dsimp only
          cases fs with
          | nil => rfl
          | cons f0 fs2 =>
            cases fs2 with
            | nil =>
              obtain ⟨k, v2⟩ := f0
              dsimp only
              have hv2 : sizeJ v2 ≤ sizeObj [(k, v2)] := by simp [sizeObj]
              rw [ih m (by omega) v2 (by omega),
                ih (1 + sizeObj [(k, v2)]) (by omega) v2 (by omega)]
            | cons f1 fs3 => rfl

/-! ### The sanitizer never returns the artifact -/

theorem joinSep_no_artifact (ls : List (List Char))
    (h : ∀ e ∈ ls, e ≠ [] ∧ e ≠ artifactChars) :
    joinSep ((", ").data) ls ≠ artifactChars := by
  match ls with
  | [] => simp [joinSep]; decide
  | [x] =>
    rw [joinSep]
    exact (h x (by simp)).2
  | x :: y :: rest =>
    rw [joinSep]
    intro heq
    have hmem : ',' ∈ x ++ (", ").data ++ joinSep ((", ").data) (y :: rest) := by
      rw [List.mem_append]
      left
      rw [List.mem_append]
      right
      decide
    rw [heq] at hmem
    have : ¬ (',' ∈ artifactChars) := by decide
    exact this hmem

theorem sanitizeFuel_no_artifact :
    ∀ (n : Nat) (v : JsonVal), numOk v = true → sanitizeFuel n v ≠ artifactChars := by
  intro n
  induction n with
  | zero => intro v _; rw [sanitizeFuel]; decide
  | succ m ih =>
    intro v hok
    cases v with
    | null =>
      have h0 : sanitizeFuel (m + 1) JsonVal.null = [] := rfl
      rw [h0]; decide
    | bool b =>
      cases b with
      | false =>
        have h0 : sanitizeFuel (m + 1) (JsonVal.bool false) = ("false").data := rfl
        rw [h0]; decide
      | true =>
        have h0 : sanitizeFuel (m + 1) (JsonVal.bool true) = ("true").data := rfl
        rw [h0]; decide
    | num lit =>
      have h0 : sanitizeFuel (m + 1) (JsonVal.num lit) = lit := rfl
      rw [h0]
      intro heq
      rw [numOk, heq] at hok
      exact absurd hok (by decide)
    | str s =>
      rw [sanitizeFuel_str]
      split
      · cases hp : parseJson (jsTrim s) with
        | some p =>
          dsimp only
          exact ih p (parseJson_numOk hp)
        | none =>
          dsimp only
          split
          · decide
          · rename_i hne
            simpa using hne
      · split
        · decide
        · rename_i hne
          simpa using hne
    | arr xs =>
      rw [sanitizeFuel_arr]
      apply joinSep_no_artifact
      intro e he
      rw [List.mem_filter] at he
      obtain ⟨hmap, hne⟩ := he
      rw [List.mem_map] at hmap
      obtain ⟨x, hx, hxe⟩ := hmap
      constructor
      · simpa using hne
      · rw [← hxe]
        exact ih x (numOkArr_mem hx (by simpa [numOk] using hok))
    | obj fs =>
      rw [sanitizeFuel_obj]
      cases hfp : firstPresent fs priorityKeys with
      | some v2 =>
        dsimp only
        exact ih v2 (firstPresent_numOk hfp (by simpa [numOk] using hok))
      | none =>
        dsimp only
        cases fs with
        | nil => simp; decide
        | cons f0 fs2 =>
          cases fs2 with
          | nil =>
            obtain ⟨k, v2⟩ := f0
            dsimp only
            apply ih v2
            rw [numOk] at hok
            rw [numOkObj, Bool.and_eq_true] at hok
            exact hok.1
          | cons f1 fs3 =>
            obtain ⟨k1, v1⟩ := f0
            obtain ⟨k2, v2⟩ := f1
            dsimp only
            simp
            decide

/-! ### Branch behaviour of the sanitizer on plain strings -/

theorem sanitize_passthrough {s : List Char}
    (h1 : startsWithL (jsTrim s) [('\x7b')] = false)
    (h2 : jsTrim s ≠ artifactChars) :
    sanitizeString (JsonVal.str s) = s := by
  show sanitizeFuel (sizeJ (JsonVal.str s) + 1) (JsonVal.str s) = s
  have hsz : sizeJ (JsonVal.str s) = s.length + 1 := by simp [sizeJ]
  rw [hsz, sanitizeFuel_str]
  have hc2 : startsWithL (jsTrim s) (('\x7b') :: ('"') :: []) = false := by
    cases hx : startsWithL (jsTrim s) (('\x7b') :: ('"') :: [])
    · rfl
    · exact absurd (startsWithL_two_imp hx) (by simp [h1])
  have hbeq : (jsTrim s == artifactChars) = false := by
    simpa using h2
  rw [hbeq, hc2, h1]
  simp only [Bool.or_false]
  rw [if_neg (by simp)]
  have hs : (s == artifactChars) = false := by
    cases hx : s == artifactChars
    · rfl
    · exfalso
      apply h2
      rw [(beq_iff_eq ..).mp hx]
      decide
  rw [hs]
  simp

theorem sanitize_parsefail {s : List Char}
    (h1 : startsWithL (jsTrim s) [('\x7b')] = true)
    (h2 : parseJson (jsTrim s) = none) :
    sanitizeString (JsonVal.str s) = jsTrim s := by
  show sanitizeFuel (sizeJ (JsonVal.str s) + 1) (JsonVal.str s) = jsTrim s
  have hsz : sizeJ (JsonVal.str s) = s.length + 1 := by simp [sizeJ]
  rw [hsz, sanitizeFuel_str, h1]
  simp only [Bool.or_true]
  rw [if_pos trivial, h2]
  obtain ⟨r, hr⟩ := startsWithL_single h1
  have hne : jsTrim s ≠ artifactChars := by
    rw [hr]
    intro hx
    have hart : artifactChars = '[' :: (("object Object]").data) := rfl
    rw [hart] at hx
    injection hx with hx1 hx2
    exact absurd hx1 (by decide)
  have hbeq : (jsTrim s == artifactChars) = false := by simpa using hne
  rw [hbeq]
  simp

theorem sanitize_artifact_trim {s : List Char}
    (ht : jsTrim s = artifactChars) : sanitizeString (JsonVal.str s) = [] := by
  show sanitizeFuel (sizeJ (JsonVal.str s) + 1) (JsonVal.str s) = []
  have hsz : sizeJ (JsonVal.str s) = s.length + 1 := by simp [sizeJ]
  rw [hsz, sanitizeFuel_str, ht]
  have hp : parseJson artifactChars = none := rfl
  rw [if_pos (by simp), hp]
  simp

/-! ### Claim theorems -/

/-- C1: For every JSON-representable input value (a `JsonVal` whose numeral
    literals are well-formed), `sanitizeString` never returns the literal
    degenerate-stringification artifact `"[object Object]"` — including when
    the input is that string, a string trimming to it, an array of such
    strings, or an object whose selected field holds it. -/
theorem sanitizeString_never_artifact (v : JsonVal) (h : numOk v = true) :
    sanitizeString v ≠ artifactChars :=
  sanitizeFuel_no_artifact (sizeJ v + 1) v h

theorem sanitizeString_never_artifact_witness :
    sanitizeString (JsonVal.str (("[object Object]").data)) ≠ artifactChars ∧
    sanitizeString (JsonVal.str (("  [object Object]  ").data)) ≠ artifactChars ∧
    sanitizeString (JsonVal.arr [JsonVal.str (("[object Object]").data)])
      ≠ artifactChars ∧
    sanitizeString (JsonVal.obj [((("text").data),
      JsonVal.str (("[object Object]").data))]) ≠ artifactChars :=
  ⟨sanitizeString_never_artifact _ (by decide),
   sanitizeString_never_artifact _ (by decide),
   sanitizeString_never_artifact _ (by decide),
   sanitizeString_never_artifact _ (by decide)⟩

/-- C4: `sanitizeString` is total and its recursion — including the
    self-recursion through `JSON.parse` of strings that start with `{` —
    terminates on every finite JSON value: any fuel beyond `sizeJ v` makes
    the fuel-indexed recursion compute the (always-defined) string
    `sanitizeString v`. -/
theorem sanitizeString_total (v : JsonVal) (n : Nat) (h : sizeJ v < n) :
    sanitizeFuel n v = sanitizeString v :=
  sanitizeFuel_stable n v h

theorem sanitizeString_total_witness :
    sizeJ (JsonVal.str (("\x7b\"text\": \"\x7b\\\"text\\\": \\\"hi\\\"\x7d\"\x7d").data)) < 100 ∧
    sanitizeFuel 100 (JsonVal.str (("\x7b\"text\": \"\x7b\\\"text\\\": \\\"hi\\\"\x7d\"\x7d").data))
      = sanitizeString (JsonVal.str (("\x7b\"text\": \"\x7b\\\"text\\\": \\\"hi\\\"\x7d\"\x7d").data)) :=
  ⟨by decide, sanitizeString_total _ 100 (by decide)⟩

/-- C5 counterexample: on the string `"  abc  "` (trimmed form `"abc"`, which
    does not start with `{` and is not the artifact) the code returns the
    string unchanged, not the trimmed value the claim requires. -/
theorem sanitizeString_untrimmed_counterexample :
    sanitizeString (JsonVal.str (("  abc  ").data)) ≠ jsTrim (("  abc  ").data) := by
  decide

/-- C5 (amended): `sanitizeString` only *tests* the trimmed value; for a
    string whose trimmed form neither starts with `{` nor equals the
    artifact it returns the original string unchanged (whitespace kept), and
    it returns the trimmed string exactly in the failed-JSON-parse path. -/
theorem sanitizeString_trim_behavior (s : List Char) :
    (startsWithL (jsTrim s) [('\x7b')] = false → jsTrim s ≠ artifactChars →
      sanitizeString (JsonVal.str s) = s) ∧
    (startsWithL (jsTrim s) [('\x7b')] = true → parseJson (jsTrim s) = none →
      sanitizeString (JsonVal.str s) = jsTrim s) :=
  ⟨fun h1 h2 => sanitize_passthrough h1 h2, fun h1 h2 => sanitize_parsefail h1 h2⟩

theorem sanitizeString_trim_behavior_witness :
    sanitizeString (JsonVal.str ((" abc ").data)) = (" abc ").data ∧
    sanitizeString (JsonVal.str (("\x7bx").data)) = jsTrim (("\x7bx").data) :=
  ⟨(sanitizeString_trim_behavior _).1 (by decide) (by decide),
   (sanitizeString_trim_behavior _).2 (by decide) (by rfl)⟩

/-- C3 counterexample: `sanitizeString` is not idempotent on strings. For
    x = `{"text":["{\"a\":1","\"b\":2}"]}` the first pass joins the two
    array entries into the valid JSON text `{"a":1, "b":2}`, and the second
    pass parses that to a two-key object and collapses it to `""`. -/
theorem sanitizeString_idempotent_counterexample :
    sanitizeString (JsonVal.str (sanitizeString (JsonVal.str
      (("\x7b\"text\":[\"\x7b\\\"a\\\":1\",\"\\\"b\\\":2\x7d\"]\x7d").data))))
    ≠ sanitizeString (JsonVal.str
      (("\x7b\"text\":[\"\x7b\\\"a\\\":1\",\"\\\"b\\\":2\x7d\"]\x7d").data)) := by
  decide

/-- C3 (amended): `sanitizeString` is idempotent on every string whose
    trimmed form does not start with `{`, and on every string whose trimmed
    form fails to parse as JSON — i.e. whenever the recursive
    parse-and-sanitize path that the counterexample exploits is not taken. -/
theorem sanitizeString_idempotent_plain (s : List Char) :
    (startsWithL (jsTrim s) [('\x7b')] = false →
      sanitizeString (JsonVal.str (sanitizeString (JsonVal.str s)))
        = sanitizeString (JsonVal.str s)) ∧
    (parseJson (jsTrim s) = none →
      sanitizeString (JsonVal.str (sanitizeString (JsonVal.str s)))
        = sanitizeString (JsonVal.str s)) := by
  constructor
  · intro h
    by_cases ht : jsTrim s = artifactChars
    · rw [sanitize_artifact_trim ht]
      decide
    · rw [sanitize_passthrough h ht]
      exact sanitize_passthrough h ht
  · intro hp
    by_cases h : startsWithL (jsTrim s) [('\x7b')] = true
    · rw [sanitize_parsefail h hp]
      have h2 : jsTrim (jsTrim s) = jsTrim s := jsTrim_idem s
      rw [sanitize_parsefail (by rw [h2]; exact h) (by rw [h2]; exact hp), h2]
    · have hfalse : startsWithL (jsTrim s) [('\x7b')] = false := by
        cases hx : startsWithL (jsTrim s) [('\x7b')]
        · rfl
        · exact absurd hx h
      by_cases ht : jsTrim s = artifactChars
      · rw [sanitize_artifact_trim ht]
        decide
      · rw [sanitize_passthrough hfalse ht]
        exact sanitize_passthrough hfalse ht

theorem sanitizeString_idempotent_plain_witness :
    sanitizeString (JsonVal.str (sanitizeString (JsonVal.str (("hello").data))))
      = sanitizeString (JsonVal.str (("hello").data)) ∧
    sanitizeString (JsonVal.str (sanitizeString (JsonVal.str (("\x7boops").data))))
      = sanitizeString (JsonVal.str (("\x7boops").data)) :=
  ⟨(sanitizeString_idempotent_plain _).1 (by decide),
   (sanitizeString_idempotent_plain _).2 (by rfl)⟩

theorem mapMeds_mem {ms : List JsonVal} {l : List Medication}
    (h : mapMeds ms = Except.ok l) (x : Medication) :
    x ∈ l ↔ ∃ m0 ∈ ms, sanitizeMed m0 = Except.ok x := by
  induction ms generalizing l with
  | nil =>
    rw [mapMeds] at h
    injection h with h1
    subst h1
    simp
  | cons m ms ih =>
    rw [mapMeds] at h
    split at h
    · cases h
    · rename_i sm hsm
      split at h
      · cases h
      · rename_i rest hrest
        injection h with h1
        subst h1
        rw [List.mem_cons]
        constructor
        · rintro (hx | hx)
          · exact ⟨m, List.mem_cons_self _ _, by rw [← hx] at hsm; exact hsm⟩
          · obtain ⟨m0, hm0, hok⟩ := (ih hrest).mp hx
            exact ⟨m0, List.mem_cons_of_mem _ hm0, hok⟩
        · rintro ⟨m0, hm0, hok⟩
          rcases List.mem_cons.mp hm0 with he | hm
          · subst he
            rw [hsm] at hok
            injection hok with h2
            exact Or.inl h2.symm
          · exact Or.inr ((ih hrest).mpr ⟨m0, hm, hok⟩)

theorem lowerL_nil_iff (l : List Char) : lowerL l = [] ↔ l = [] := by
  simp [lowerL]

theorem isEmpty_false_iff (l : List Char) : l.isEmpty = false ↔ l ≠ [] := by
  cases l <;> simp

theorem lowerL_length (l : List Char) : (lowerL l).length = l.length :=
  List.length_map _ _

/-- C6: an entry survives the medication normalization exactly when its
    sanitized `prescribed_brand` is non-empty, longer than one character, and
    its lower-cased form contains neither "not provided" nor "illegible";
    failing entries are removed, not defaulted. -/
theorem medications_filter_spec (ms : List JsonVal) (l : List Medication)
    (h : normalizeMedications ms = Except.ok l) (x : Medication) :
    x ∈ l ↔ ((∃ m0 ∈ ms, sanitizeMed m0 = Except.ok x) ∧
      x.prescribed_brand ≠ [] ∧ 1 < x.prescribed_brand.length ∧
      containsL (lowerL x.prescribed_brand) (("not provided").data) = false ∧
      containsL (lowerL x.prescribed_brand) (("illegible").data) = false) := by
  rw [normalizeMedications] at h
  split at h
  · rename_i l0 hmap
    injection h with h1
    subst h1
    rw [List.mem_filter, mapMeds_mem hmap x]
    have hkeep : keepMed x = true ↔
        (x.prescribed_brand ≠ [] ∧ 1 < x.prescribed_brand.length ∧
          containsL (lowerL x.prescribed_brand) (("not provided").data) = false ∧
          containsL (lowerL x.prescribed_brand) (("illegible").data) = false) := by
      rw [keepMed]
      simp only [Bool.and_eq_true, Bool.not_eq_true', decide_eq_true_eq,
        isEmpty_false_iff, ne_eq, lowerL_nil_iff, lowerL_length]
      constructor
      · rintro ⟨⟨⟨a, b⟩, c⟩, d⟩
        exact ⟨a, b, c, d⟩
      · rintro ⟨a, b, c, d⟩
        exact ⟨⟨⟨a, b⟩, c⟩, d⟩
    rw [hkeep]
  · cases h

theorem medications_filter_spec_witness :
    ((⟨("Crocin").data, [], [], [], [], []⟩ : Medication) ∈
      ([⟨("Crocin").data, [], [], [], [], []⟩] : List Medication)) ∧
    ¬ ((⟨("Not provided in image").data, [], [], [], [], []⟩ : Medication) ∈
      ([⟨("Crocin").data, [], [], [], [], []⟩] : List Medication)) :=
  ⟨(medications_filter_spec
      [JsonVal.obj [((("prescribed_brand").data),
         JsonVal.str (("Not provided in image").data))],
       JsonVal.obj [((("prescribed_brand").data), JsonVal.str (("Crocin").data))]]
      _ (by rfl) _).mpr
      ⟨⟨JsonVal.obj [((("prescribed_brand").data), JsonVal.str (("Crocin").data))],
        by simp, by rfl⟩, by decide, by decide, by rfl, by rfl⟩,
   fun hmem => by
     have hc := (medications_filter_spec
      [JsonVal.obj [((("prescribed_brand").data),
         JsonVal.str (("Not provided in image").data))],
       JsonVal.obj [((("prescribed_brand").data), JsonVal.str (("Crocin").data))]]
      _ (by rfl) _).mp hmem
     exact absurd hc.2.2.2.1 (by decide)⟩

/-- C2 counterexample: the claim says the normalized `bhashini_summary.en`
    is never empty, but a present, truthy source value of
    `"[object Object]"` is passed through `sanitizeString`, which collapses
    it to the empty string. -/
theorem bhashiniEn_counterexample :
    bhashiniEn [((("bhashini_summary").data),
      JsonVal.obj [((("en").data), JsonVal.str (("[object Object]").data))])]
      = [] := by decide

/-- C2 (amended): `bhashini_summary.en` is `sanitizeString` of the source
    `en` value with `"Analysis complete."` substituted when that value is
    absent or falsy; in the absent/falsy case the result is exactly the
    non-empty fallback literal, but for a present truthy degenerate value
    the sanitization may produce the empty string. -/
theorem bhashiniEn_fallback (fs : List (List Char × JsonVal))
    (h : rawEn fs = none) :
    bhashiniEn fs = ("Analysis complete.").data ∧ bhashiniEn fs ≠ [] := by
  have h1 : bhashiniEn fs = ("Analysis complete.").data := by
    rw [bhashiniEn, h]
    decide
  exact ⟨h1, by rw [h1]; decide⟩

theorem bhashiniEn_fallback_witness :
    rawEn ([] : List (List Char × JsonVal)) = none ∧
    bhashiniEn [] = ("Analysis complete.").data ∧ bhashiniEn [] ≠ [] :=
  ⟨by rfl, bhashiniEn_fallback [] (by rfl)⟩

/-- C7: the JSON-extraction step recovers the object from a fenced response
    and from an embedded first-`{`-to-last-`}` span, and fails with a parse
    error exactly when neither the fence-stripped text nor the brace span
    parses as JSON (e.g. on "no braces here"). -/
theorem extractJson_spec :
    extractJson (("```json\n\x7b\"a\":1\x7d\n```").data)
      = Except.ok (JsonVal.obj [((("a").data), JsonVal.num (("1").data))]) ∧
    extractJson (("noise \x7b\"a\":1\x7d noise").data)
      = Except.ok (JsonVal.obj [((("a").data), JsonVal.num (("1").data))]) ∧
    (∃ e, extractJson (("no braces here").data) = Except.error e) ∧
    (∀ t : List Char, (∃ e, extractJson t = Except.error e) ↔
      (parseJson (stripFences t) = none ∧
        ∀ sp, braceSpan t = some sp → parseJson sp = none)) := by
  refine ⟨by rfl, by rfl, ⟨_, by rfl⟩, ?_⟩
  intro t
  constructor
  · rintro ⟨e, he⟩
    rw [extractJson] at he
    split at he
    · cases he
    · rename_i hpf
      refine ⟨hpf, ?_⟩
      intro sp hsp
      rw [hsp] at he
      dsimp only at he
      split at he
      · cases he
      · rename_i hps
        exact hps
  · rintro ⟨h1, h2⟩
    rw [extractJson, h1]
    cases hbs : braceSpan t with
    | some sp =>
      dsimp only
      rw [h2 sp hbs]
      exact ⟨_, rfl⟩
    | none =>
      dsimp only
      exact ⟨_, rfl⟩

theorem extractJson_spec_witness :
    parseJson (stripFences (("xx").data)) = none ∧
    (∃ e, extractJson (("xx").data) = Except.error e) :=
  ⟨by rfl, (extractJson_spec.2.2.2 (("xx").data)).mpr
    ⟨by rfl, fun sp hsp =>
      Option.noConfusion (show (none : Option (List Char)) = some sp from hsp)⟩⟩

theorem jsTrim_eq_self {l : List Char} (h1 : l.dropWhile wsp = l)
    (h2 : l.reverse.dropWhile wsp = l.reverse) : jsTrim l = l := by
  rw [jsTrim, h1, h2, List.reverse_reverse]

theorem synthMapUri_head (lat lng : Int) :
    ∃ t, synthMapUri lat lng = 'h' :: t :=
  ⟨_, rfl⟩

theorem synthMapUri_last (lat lng : Int) :
    ∃ r, (synthMapUri lat lng).reverse = 'z' :: r := by
  rw [synthMapUri, List.reverse_append]
  exact ⟨_, rfl⟩

theorem sanitize_synthMapUri (lat lng : Int) :
    sanitizeString (JsonVal.str (synthMapUri lat lng)) = synthMapUri lat lng := by
  obtain ⟨t, ht⟩ := synthMapUri_head lat lng
  obtain ⟨r, hr⟩ := synthMapUri_last lat lng
  have htrim : jsTrim (synthMapUri lat lng) = synthMapUri lat lng := by
    apply jsTrim_eq_self
    · rw [ht, List.dropWhile_cons]
      have : wsp 'h' = false := by decide
      rw [this]
      simp
    · rw [hr, List.dropWhile_cons]
      have : wsp 'z' = false := by decide
      rw [this]
      simp
  apply sanitize_passthrough
  · rw [htrim, ht]
    simp [startsWithL]
  · rw [htrim, ht]
    intro hx
    have hart : artifactChars = '[' :: (("object Object]").data) := rfl
    rw [hart] at hx
    injection hx with hx1 hx2
    exact absurd hx1 (by decide)

/-- C8 counterexample: a provider-supplied map URI whose sanitization is a
    non-empty but parseable JSON object text skips the constructed-URL
    fallback, and the final sanitization pass collapses it — the returned
    `StoreLocation` has an empty `mapUri`. -/
theorem findNearestStore_empty_mapUri_counterexample :
    findNearestStore 1 2 (Except.ok ⟨some [JsonVal.obj [((("groundingMetadata").data),
      JsonVal.obj [((("groundingChunks").data), JsonVal.arr [JsonVal.obj
        [((("maps").data), JsonVal.obj [((("uri").data), JsonVal.str
          (("\x7b\"text\":[\"\x7b\\\"a\\\":1\",\"\\\"b\\\":2\x7d\"]\x7d").data))])]])])]],
      none⟩)
      = some ⟨("Jan Aushadhi Kendra").data,
          ("Jan Aushadhi Kendra (Verified Store)").data, []⟩ := by
  rfl

/-- C8 (amended): when the accumulated map URI is empty after scanning the
    grounding chunks, the returned store's `mapUri` is exactly the
    constructed map-search URL embedding the supplied coordinates (and is
    non-empty), and the name defaults to the fixed placeholder when its
    sanitization is empty; a provider-supplied URI sanitizing to a parseable
    object text can, however, leave `mapUri` empty (see the
    counterexample). -/
theorem findNearestStore_mapUri_fallback (lat lng : Int) (resp : StoreResponse)
    (c0 : JsonVal) (cs xs : List JsonVal) (st : ChunkState)
    (hc : resp.candidates = some (c0 :: cs))
    (hx : chunksOf c0 = Except.ok xs)
    (hst : foldChunks xs initChunkState = Except.ok st)
    (hu : st.mapUri = []) :
    ∃ loc, findNearestStoreCore lat lng resp = Except.ok (some loc) ∧
      findNearestStore lat lng (Except.ok resp) = some loc ∧
      loc.mapUri = synthMapUri lat lng ∧ loc.mapUri ≠ [] ∧ loc.name ≠ [] ∧
      (sanitizeString (JsonVal.str st.name) = [] →
        loc.name = ("Jan Aushadhi Kendra").data) := by
  have hcore : findNearestStoreCore lat lng resp = Except.ok (some
      { name := (if (sanitizeString (JsonVal.str st.name)).isEmpty
                 then ("Jan Aushadhi Kendra").data
                 else sanitizeString (JsonVal.str st.name)),
        address := sanitizeString (JsonVal.str (addressOf resp st)),
        mapUri := sanitizeString (JsonVal.str (synthMapUri lat lng)) }) := by
    rw [findNearestStoreCore, hc]
    dsimp only
    rw [hx]
    dsimp only [Bind.bind, Except.bind]
    rw [hst]
    dsimp only
    rw [hu]
    dsimp only [List.isEmpty]
    rfl
  refine ⟨_, hcore, ?_, ?_, ?_, ?_, ?_⟩
  · rw [findNearestStore]
    dsimp only
    rw [hcore]
  · exact sanitize_synthMapUri lat lng
  · rw [sanitize_synthMapUri lat lng]
    obtain ⟨t, ht⟩ := synthMapUri_head lat lng
    rw [ht]
    simp
  · dsimp only
    split
    · decide
    · rename_i hne
      simpa using hne
  · intro hsan
    dsimp only
    rw [hsan]
    rfl

theorem findNearestStore_mapUri_fallback_witness :
    ∃ loc, findNearestStoreCore 12 77 ⟨some [JsonVal.obj []], none⟩
        = Except.ok (some loc) ∧
      findNearestStore 12 77 (Except.ok ⟨some [JsonVal.obj []], none⟩) = some loc ∧
      loc.mapUri = synthMapUri 12 77 ∧ loc.mapUri ≠ [] ∧ loc.name ≠ [] ∧
      (sanitizeString (JsonVal.str initChunkState.name) = [] →
        loc.name = ("Jan Aushadhi Kendra").data) :=
  findNearestStore_mapUri_fallback 12 77 _ _ [] [] initChunkState rfl rfl rfl rfl

/-- C9: when the provider response has no candidates (absent list or empty
    list), `findNearestStore` returns the no-result value `null` without
    signalling an error. -/
theorem findNearestStore_no_candidates (lat lng : Int) (resp : StoreResponse)
    (h : resp.candidates = none ∨ resp.candidates = some []) :
    findNearestStoreCore lat lng resp = Except.ok none ∧
    findNearestStore lat lng (Except.ok resp) = none := by
  have hcore : findNearestStoreCore lat lng resp = Except.ok none := by
    rcases h with h | h <;> (rw [findNearestStoreCore, h])
  refine ⟨hcore, ?_⟩
  rw [findNearestStore]
  rw [hcore]

theorem findNearestStore_no_candidates_witness :
    findNearestStore 1 2 (Except.ok ⟨none, none⟩) = none ∧
    findNearestStore 1 2 (Except.ok ⟨some [], none⟩) = none :=
  ⟨(findNearestStore_no_candidates 1 2 _ (Or.inl rfl)).2,
   (findNearestStore_no_candidates 1 2 _ (Or.inr rfl)).2⟩

/-- C10: `findNearestStore` never propagates an exception: a failed provider
    call returns `null` through the `catch`, an internal `TypeError` in the
    extraction also returns `null`, and a network failure is therefore
    indistinguishable from a no-result value at the function's interface. -/
theorem findNearestStore_never_throws (lat lng : Int) :
    (∀ e, findNearestStore lat lng (Except.error e) = none) ∧
    (∀ resp, findNearestStoreCore lat lng resp = Except.error () →
      findNearestStore lat lng (Except.ok resp) = none) ∧
    (∀ e, findNearestStore lat lng (Except.error e)
      = findNearestStore lat lng (Except.ok ⟨none, none⟩)) := by
  refine ⟨fun e => rfl, fun resp h => ?_, fun e => rfl⟩
  rw [findNearestStore]
  rw [h]

theorem findNearestStore_never_throws_witness :
    findNearestStore 3 4 (Except.error (("network failure").data)) = none ∧
    findNearestStore 3 4 (Except.ok ⟨some [JsonVal.null], none⟩) = none ∧
    findNearestStore 3 4 (Except.error (("timeout").data))
      = findNearestStore 3 4 (Except.ok ⟨none, none⟩) :=
  ⟨(findNearestStore_never_throws 3 4).1 _,
   (findNearestStore_never_throws 3 4).2.1 _ (by rfl),
   (findNearestStore_never_throws 3 4).2.2 _⟩
